import Mathlib

/-
Verification of the FNN (feedforward neural network) engine of this
repository against its natural-language specification.

Shallow embedding conventions:
  * matrices (numpy 2d arrays) are lists of rows of rationals; the exact
    rational arithmetic models the float arithmetic of the source;
  * the special float values produced by numpy (`np.log(0) = -inf`,
    `-inf + finite = -inf`, negation of `-inf`, NaN) are modelled by the
    carrier `NpFloat` below, used for the cost computation;
  * fallible numpy operations (out-of-range indexing, the NameError of an
    unbound loop variable) are modelled with Option / Except;
  * the modules layer.py, metrics.py and gradient_checker.py of this
    repository are imported by fnn.py but are not part of the sources
    given here; the layer contract they provide is modelled from the
    specification where a claim needs it (each such definition is marked
    in its doc comment).
-/

namespace NNFL

abbrev Vec := List ℚ

abbrev Mat := List Vec

/-- Elementwise vector sum; models numpy `+` on equally shaped 1d arrays. -/
def vadd (a b : Vec) : Vec := List.zipWith (fun p q => p + q) a b

/-- Elementwise vector difference; models numpy `-` on equally shaped 1d arrays. -/
def vsub (a b : Vec) : Vec := List.zipWith (fun p q => p - q) a b

/-- Scalar times vector; models numpy scalar broadcasting. -/
def vsmul (c : ℚ) (a : Vec) : Vec := a.map (fun p => c * p)

/-- Elementwise matrix difference; models numpy `-` on equally shaped 2d arrays. -/
def msub (a b : Mat) : Mat := List.zipWith vsub a b

/-- Scalar times matrix; models numpy scalar broadcasting. -/
def msmul (c : ℚ) (a : Mat) : Mat := a.map (vsmul c)

/-- Model of an IEEE-style float result as far as the cost computation of
fnn.py observes it: NaN, the two infinities, or a finite real value. -/
inductive NpFloat where
  | nan : NpFloat
  | pinf : NpFloat
  | ninf : NpFloat
  | fin : ℝ → NpFloat

/-- Addition on `NpFloat`, following IEEE semantics (NaN absorbs, opposite
infinities give NaN, an infinity absorbs finite values). -/
def npAdd : NpFloat → NpFloat → NpFloat
  | NpFloat.nan, _ => NpFloat.nan
  | _, NpFloat.nan => NpFloat.nan
  | NpFloat.pinf, NpFloat.ninf => NpFloat.nan
  | NpFloat.ninf, NpFloat.pinf => NpFloat.nan
  | NpFloat.pinf, _ => NpFloat.pinf
  | NpFloat.ninf, _ => NpFloat.ninf
  | NpFloat.fin _, NpFloat.pinf => NpFloat.pinf
  | NpFloat.fin _, NpFloat.ninf => NpFloat.ninf
  | NpFloat.fin a, NpFloat.fin b => NpFloat.fin (a + b)

/-- Negation on `NpFloat`. -/
def npNeg : NpFloat → NpFloat
  | NpFloat.nan => NpFloat.nan
  | NpFloat.pinf => NpFloat.ninf
  | NpFloat.ninf => NpFloat.pinf
  | NpFloat.fin a => NpFloat.fin (-a)

/-- Model of `np.log` on an exact (rational) input: `np.log(0)` is `-inf`
(with a warning only, no exception), a negative input gives NaN, and a
positive input gives the real logarithm. -/
noncomputable def npLog (q : ℚ) : NpFloat :=
  if q = 0 then NpFloat.ninf else if q < 0 then NpFloat.nan else NpFloat.fin (Real.log q)

/-- Model of `np.sum` on a 1d array: fold of additions starting from zero. -/
def npSum (l : List NpFloat) : NpFloat := l.foldl npAdd (NpFloat.fin 0)

/-- Embedding of `sigmoid` from src/utils/tools.py lines 331-340: a
two-branch numerically stable form selected on the sign of the input. -/
noncomputable def sigmoid (x : ℝ) : ℝ :=
  if 0 ≤ x then 1 / (1 + Real.exp (-x)) else Real.exp x / (Real.exp x + 1)

/-- Reference definition of the sigmoid function as the specification
states it: `1/(1+exp(-x))`. -/
noncomputable def sigmoidRef (x : ℝ) : ℝ := 1 / (1 + Real.exp (-x))

/-- First-match association lookup, modelling a Python dict built from a
list of key/value pairs with distinct keys. -/
def alookup {α β : Type} [DecidableEq α] : List (α × β) → α → Option β
  | [], _ => none
  | p :: t, a => if p.1 = a then some p.2 else alookup t a

/-- Embedding of `label_set = set(self.label_y)` from fnn.py line 58: the
distinct raw labels (one enumeration of the set; the bijection claims are
independent of the enumeration order a Python set produces). -/
def labelSet (ly : List ℤ) : List ℤ := ly.dedup

/-- Embedding of `label_to_y = dict(zip(label_set, y_set))` from fnn.py
lines 59-60: the distinct labels paired with the dense indices 0..K-1. -/
def labelToY (ly : List ℤ) : List (ℤ × ℕ) :=
  (labelSet ly).zip (List.range (labelSet ly).length)

/-- Embedding of `y_to_label` from fnn.py line 65: the inverse pairs. -/
def yToLabel (ly : List ℤ) : List (ℕ × ℤ) := (labelToY ly).map Prod.swap

/-- Embedding of `self.y = np.array([label_to_y[label] for label in
self.label_y])` from fnn.py line 61 (the lookup always succeeds since every
label is in the set; 0 is an unreachable default). -/
def denseY (ly : List ℤ) : List ℕ :=
  ly.map (fun lab => (alookup (labelToY ly) lab).getD 0)

/-- Modelled from the spec: the hidden/softmax layer contract of layer.py
(not in src/). `fwdFun` and `bpFun` abstract the layer's numeric maps
(affine transform plus activation resp. its gradient); `bpFun` takes the
cached forward input and the incoming output gradient and yields the input
gradient together with the layer's parameter gradients. `cache` is the
forward cache of spec section 3: created by forward, consumed by the
paired backprop. -/
structure Layer where
  fwdFun : Mat → Mat
  bpFun : Mat → Mat → Mat × List Mat
  cache : Option Mat

/-- State of an FNN orchestrator (fnn.py class FNN): the construction-time
data (`x`, `labelY`, the shared `word2vec` table, the update flag), the
flattened parameter list, the embedding-layer cache, the layer stack
(hidden layers then softmax, in construction order) and the cached forward
output `forward_out`. -/
structure FNNState where
  x : List (List ℕ)
  labelY : List ℤ
  word2vec : Mat
  upWordvec : Bool
  params : List Mat
  emb : Option (List (List ℕ))
  layers : List Layer
  forwardOut : Option Mat

/-- Modelled from the spec (section 4.2, layer.py not in src/): embedding
lookup of one sample, concatenating the word vectors of its tokens in
position order; an out-of-range token index fails. -/
def embRow (w2v : Mat) (sample : List ℕ) : Option Vec :=
  (sample.mapM (fun t => w2v.get? t)).map List.flatten

/-- Modelled from the spec (section 4.2): embedding forward over a batch. -/
def embForward (w2v : Mat) (x : List (List ℕ)) : Option Mat :=
  x.mapM (embRow w2v)

/-- Forward pass through the layer stack (the loop of fnn.py lines
115-116), threading the value and refreshing each layer's forward cache. -/
def layersForward : List Layer → Mat → List Layer × Mat
  | [], v => ([], v)
  | l :: ls, v =>
    let r := layersForward ls (l.fwdFun v)
    ({ l with cache := some v } :: r.1, r.2)

/-- Embedding of `FNN.forward` (fnn.py lines 107-118): embedding lookup,
then each layer in construction order, caching the final probabilities in
`forward_out`. -/
def fnnForward (st : FNNState) (x : List (List ℕ)) : Except Unit (FNNState × Mat) :=
  match embForward st.word2vec x with
  | none => Except.error ()
  | some e0 =>
    let r := layersForward st.layers e0
    Except.ok ({ st with emb := some x, layers := r.1, forwardOut := some r.2 }, r.2)

/-- Embedding of the fancy indexing `py[np.arange(0, y.shape[0]), y]` of
fnn.py line 103: the true-class probability of each sample, failing on an
out-of-range row or label index. -/
def gatherTrue : Mat → List ℕ → Option Vec
  | _, [] => some []
  | [], _ :: _ => none
  | r :: rs, j :: js =>
    match r.get? j, gatherTrue rs js with
    | some v, some t => some (v :: t)
    | _, _ => none

/-- Embedding of `FNN.cost` (fnn.py lines 97-105): a fresh forward pass,
then the negated sum of the logarithms of the true-class probabilities.
There is no zero-probability check in the source: `np.log(0)` contributes
`-inf` and the sum is returned as a value. -/
noncomputable def fnnCost (st : FNNState) (x : List (List ℕ)) (y : List ℕ) :
    Except Unit (FNNState × NpFloat) :=
  match fnnForward st x with
  | Except.error e => Except.error e
  | Except.ok (st1, py) =>
    match gatherTrue py y with
    | none => Except.error ()
    | some ps => Except.ok (st1, npNeg (npSum (ps.map npLog)))

/-- Tail of `np.argmax` on one row: scans with the current best value,
best index and next position; a strictly larger value replaces the best,
so the first occurrence of the maximum wins, as numpy specifies. -/
def argmaxGo : List ℚ → ℚ → ℕ → ℕ → ℕ
  | [], _, bi, _ => bi
  | w :: ws, bv, bi, k =>
    if bv < w then argmaxGo ws w k (k + 1) else argmaxGo ws bv bi (k + 1)

/-- Embedding of `np.argmax` over one row; the empty row fails as numpy
does. -/
def argmaxIdx : Vec → Option ℕ
  | [] => none
  | v :: vs => some (argmaxGo vs v 0 1)

/-- Embedding of `FNN.predict` (fnn.py lines 209-221): a fresh forward
pass, the row-wise argmax, and the inverse label mapping `y_to_label`. -/
def fnnPredict (st : FNNState) (x : List (List ℕ)) : Except Unit (FNNState × List ℤ) :=
  match fnnForward st x with
  | Except.error e => Except.error e
  | Except.ok (st1, py) =>
    match py.mapM argmaxIdx with
    | none => Except.error ()
    | some idxs =>
      match idxs.mapM (fun i => alookup (yToLabel st.labelY) i) with
      | none => Except.error ()
      | some labs => Except.ok (st1, labs)

/-- One row of the seeded output gradient of fnn.py lines 131-133: the
`np.zeros` row of the same width with `-1 / p[i][y[i]]` written at the
true-class column. -/
def seedRow (r : Vec) (j : ℕ) : Vec :=
  (List.replicate r.length (0 : ℚ)).set j (-1 / r.getD j 0)

/-- Embedding of the seeding loop of fnn.py lines 131-133: one seeded row
per row of `forward_out`, failing when the label list is shorter than the
batch or a label is out of the row's range (numpy IndexError). -/
def seedGrad : Mat → List ℕ → Option Mat
  | [], _ => some []
  | _ :: _, [] => none
  | r :: rs, j :: js =>
    if j < r.length then
      match seedGrad rs js with
      | none => none
      | some t => some (seedRow r j :: t)
    else none

/-- The seeded gradient matrix on the success path of `seedGrad`. -/
def seedOk (p : Mat) (y : List ℕ) : Mat := List.zipWith seedRow p y

/-- Backward pass over an already reversed layer list (the loop of fnn.py
lines 136-138): each layer consumes its forward cache (an absent cache is
a state error, spec section 3), propagates the gradient, and its parameter
gradients are prepended so the collected list ends up in construction
order. -/
def layersBackprop : List Layer → Mat → Except Unit (List Layer × (Mat × List Mat))
  | [], g => Except.ok ([], (g, []))
  | l :: ls, g =>
    match l.cache with
    | none => Except.error ()
    | some cx =>
      let r := l.bpFun cx g
      match layersBackprop ls r.1 with
      | Except.error e => Except.error e
      | Except.ok (ls2, p) =>
        Except.ok ({ l with cache := none } :: ls2, (p.1, p.2 ++ r.2))

/-- Embedding of `FNN.backprop` (fnn.py lines 120-141): a state error when
no forward output is cached, otherwise seed the output gradient, fold it
through the reversed layer stack collecting parameter gradients, and
return the gradient reaching the embedding layer together with the
collected gradient list. -/
def fnnBackprop (st : FNNState) (y : List ℕ) : Except Unit (FNNState × (Mat × List Mat)) :=
  match st.forwardOut with
  | none => Except.error ()
  | some p =>
    match seedGrad p y with
    | none => Except.error ()
    | some g0 =>
      match layersBackprop st.layers.reverse g0 with
      | Except.error e => Except.error e
      | Except.ok (lsr, r) => Except.ok ({ st with layers := lsr.reverse }, r)

/-- Reference backward recursion following the words of the specification:
over the reversed list of (cached input, backprop map) pairs, thread the
gradient and return the final gradient together with the per-layer
parameter-gradient lists in construction order. -/
def backSpec : List (Mat × (Mat → Mat → Mat × List Mat)) → Mat → Mat × List (List Mat)
  | [], g => (g, [])
  | cf :: t, g =>
    let r := cf.2 cf.1 g
    let s := backSpec t r.1
    (s.1, s.2 ++ [r.2])

/-- Column width of a numpy 2d array in this model (rows are uniform in
every state the source builds). -/
def matWidth (m : Mat) : ℕ := (m.getD 0 []).length

/-- The width-D slice of a concatenated-gradient row at token position j
(spec section 4.2). -/
def chunkAt (d : ℕ) (g : Vec) (j : ℕ) : Vec := (g.drop (j * d)).take d

/-- Modelled from the spec (section 4.2, layer.py not in src/): the
accumulated embedding gradient of one token index, summing the
position-j chunk of every occurrence of the index in the cached batch. -/
def occGrads (d : ℕ) (xc : List (List ℕ)) (g : Mat) (idx : ℕ) : Vec :=
  (xc.zip g).foldl
    (fun acc sg =>
      sg.1.enum.foldl
        (fun acc2 jt => if jt.2 = idx then vadd acc2 (chunkAt d sg.2 jt.1) else acc2) acc)
    (List.replicate d 0)

/-- Modelled from the spec (section 4.2, layer.py not in src/): the
embedding layer's backprop returns the distinct token indices touched by
the cached batch together with their accumulated gradient vectors. -/
def embBackprop (d : ℕ) (xc : List (List ℕ)) (g : Mat) : List ℕ × List Vec :=
  (xc.flatten.dedup, xc.flatten.dedup.map (occGrads d xc g))

/-- Embedding of the word-vector update loop of fnn.py lines 160-161:
subtract `lr` times each returned gradient from its table row. -/
def applyEmbUpdates (lr : ℚ) (w2v : Mat) (ups : List (ℕ × Vec)) : Mat :=
  ups.foldl (fun w p => w.set p.1 (vsub (w.getD p.1 []) (vsmul lr p.2))) w2v

/-- Embedding of the parameter update loop of fnn.py lines 156-157:
`zip(self.gparams, self.params)` pairs positionally and truncates at the
shorter list, so parameters beyond the gradient list are untouched. -/
def updParams (lr : ℚ) (params gps : List Mat) : List Mat :=
  List.zipWith (fun p g => msub p (msmul lr g)) params gps ++ params.drop gps.length

/-- Embedding of `FNN.batch_train` (fnn.py lines 143-161): forward, then
backprop, then the positional parameter update, then - only when the
embedding-update flag is set - the sparse word-vector update from the
embedding layer's backprop (which consumes the embedding cache). -/
def fnnBatchTrain (st : FNNState) (x : List (List ℕ)) (y : List ℕ) (lr : ℚ) :
    Except Unit FNNState :=
  match fnnForward st x with
  | Except.error e => Except.error e
  | Except.ok (st1, _) =>
    match fnnBackprop st1 y with
    | Except.error e => Except.error e
    | Except.ok (st2, r) =>
      let st3 := { st2 with params := updParams lr st2.params r.2 }
      if st3.upWordvec then
        match st3.emb with
        | none => Except.error ()
        | some xc =>
          let eb := embBackprop (matWidth st3.word2vec) xc r.1
          Except.ok { st3 with word2vec := applyEmbUpdates lr st3.word2vec (eb.1.zip eb.2),
                               emb := none }
      else Except.ok st3

/-- Abstract view of the per-batch training interface that
`FNN.minibatch_train` drives: `bt` is `batch_train` at a fixed learning
rate (a total state transformer; its internals are verified separately
against `fnnBatchTrain`), and `err` is the zero-one misclassification rate
that lines 198-199 of fnn.py recompute on the full training set. -/
structure NetOps (σ : Type) where
  bt : σ → List (List ℕ) → List ℕ → σ
  err : σ → ℚ

/-- Python slice `l[a:b]` for 0 ≤ a ≤ b (clamping semantics). -/
def sliceL {α : Type} (l : List α) (a b : ℕ) : List α := (l.drop a).take (b - a)

/-- Embedding of one epoch body of `FNN.minibatch_train` (fnn.py lines
184-197): `n_batches = int(N / minibatch)` full contiguous slices are
trained in index order, then the remainder slice if the sizes do not
divide; a zero minibatch size is a ZeroDivisionError, and a remainder with
zero full batches reads the never-bound loop variable `batch_i`, a
NameError. -/
def runEpoch {σ : Type} (ops : NetOps σ) (x : List (List ℕ)) (y : List ℕ) (m : ℕ)
    (s : σ) : Except Unit σ :=
  if m = 0 then Except.error () else
  let nB := y.length / m
  let s1 := (List.range nB).foldl
    (fun st i => ops.bt st (sliceL x (i * m) ((i + 1) * m)) (sliceL y (i * m) ((i + 1) * m))) s
  if nB * m ≠ y.length then
    if nB = 0 then Except.error ()
    else Except.ok (ops.bt s1 (x.drop (nB * m)) (y.drop (nB * m)))
  else Except.ok s1

/-- Embedding of the epoch loop of `FNN.minibatch_train` (fnn.py lines
183-207): epochs are numbered from 1; after each epoch the zero-one rate
is recomputed and the loop breaks once `abs(error - 0.0) <= 0.00001`; the
epoch number at termination is returned. A zero `max_epochs` leaves the
loop variable unbound at the `return`, a NameError. -/
def mtGo {σ : Type} (ops : NetOps σ) (x : List (List ℕ)) (y : List ℕ) (m : ℕ) :
    ℕ → ℕ → σ → Except Unit (ℕ × σ)
  | _, 0, _ => Except.error ()
  | e, f + 1, s =>
    match runEpoch ops x y m s with
    | Except.error er => Except.error er
    | Except.ok s1 =>
      if |ops.err s1 - 0| ≤ 1 / 100000 then Except.ok (e, s1)
      else if f = 0 then Except.ok (e, s1)
      else mtGo ops x y m (e + 1) f s1

/-- Embedding of `FNN.minibatch_train` (fnn.py lines 163-207). -/
def minibatchTrain {σ : Type} (ops : NetOps σ) (x : List (List ℕ)) (y : List ℕ)
    (m maxEpochs : ℕ) (s : σ) : Except Unit (ℕ × σ) :=
  mtGo ops x y m 1 maxEpochs s

/-- Reference partition following the words of the specification: the
contiguous chunks of size m of a list, the last chunk possibly smaller. -/
def chunksOf {α : Type} (m : ℕ) (l : List α) : List (List α) :=
  if h : m = 0 ∨ l.length = 0 then [] else
    l.take m :: chunksOf m (l.drop m)
termination_by l.length
decreasing_by
  push_neg at h
  simp only [List.length_drop]
  omega

/-- Reference epoch following the words of the specification: fold
`batch_train` over the chunk partition of the zipped training set. -/
def epochStep {σ : Type} (ops : NetOps σ) (m : ℕ) (x : List (List ℕ)) (y : List ℕ)
    (s : σ) : σ :=
  (chunksOf m (x.zip y)).foldl
    (fun st c => ops.bt st (c.map Prod.fst) (c.map Prod.snd)) s

/-- Iterated reference epochs. -/
def epochIter {σ : Type} (ops : NetOps σ) (m : ℕ) (x : List (List ℕ)) (y : List ℕ) :
    ℕ → σ → σ
  | 0, s => s
  | k + 1, s => epochIter ops m x y k (epochStep ops m x y s)

/-
Concrete instantiation used by the witnesses and counterexamples: a
vocabulary of two one-dimensional word vectors, one two-token sample, raw
labels [5, 5, 2, 9] (three distinct values) and one layer of output width
three standing for the softmax layer.
-/

/-- Example forward map of the single layer: an output row of width three
with positive entry at the true class (the claims do not require the row
to be normalized, and integer rationals keep kernel reduction usable). -/
def exFwd : Mat → Mat := fun _ => [[2, 1, 1]]

/-- Example forward map driving the true-class probability to exactly
zero. -/
def exFwd0 : Mat → Mat := fun _ => [[0, 1, 2]]

/-- Example backprop map: the input gradient is the cached input and the
single parameter gradient is the incoming gradient. -/
def exBp : Mat → Mat → Mat × List Mat := fun c g => (c, [g])

/-- Example layer before any forward pass. -/
def exLayer : Layer := { fwdFun := exFwd, bpFun := exBp, cache := none }

/-- Example orchestrator state as constructed (no forward pass yet). -/
def exSt : FNNState :=
  { x := [[0, 1]], labelY := [5, 5, 2, 9], word2vec := [[1], [2]], upWordvec := true,
    params := [[[3, 4]]], emb := none, layers := [exLayer], forwardOut := none }

/-- Example layer after the forward pass on the example input. -/
def exLayerC : Layer := { fwdFun := exFwd, bpFun := exBp, cache := some [[1, 2]] }

/-- Example state after `forward([[0, 1]])`. -/
def exSt1 : FNNState :=
  { exSt with emb := some [[0, 1]], layers := [exLayerC],
              forwardOut := some [[2, 1, 1]] }

/-- Example layer with a zero-probability forward map. -/
def exLayer0 : Layer := { fwdFun := exFwd0, bpFun := exBp, cache := none }

/-- Example state whose forward pass yields probability zero at the true
class of the only sample. -/
def exSt0 : FNNState := { exSt with layers := [exLayer0] }

/-- Example zero-probability layer after the forward pass. -/
def exLayer0C : Layer := { fwdFun := exFwd0, bpFun := exBp, cache := some [[1, 2]] }

/-- Example zero-probability state after `forward([[0, 1]])`. -/
def exSt01 : FNNState :=
  { exSt0 with emb := some [[0, 1]], layers := [exLayer0C],
               forwardOut := some [[0, 1, 2]] }

/-- Example backprop map with constant outputs: input gradient of shape
1 x 2 (matching the embedded sample width) and one parameter gradient. -/
def exBpC : Mat → Mat → Mat × List Mat := fun _ _ => ([[7, 8]], [[[9]]])

/-- Example layer with the constant backprop map, before forward. -/
def exLayerB : Layer := { fwdFun := exFwd, bpFun := exBpC, cache := none }

/-- Example state for the batch-train witness (embedding updates on). -/
def exStB : FNNState := { exSt with layers := [exLayerB] }

/-- Example layer with the constant backprop map, after forward. -/
def exLayerBC : Layer := { fwdFun := exFwd, bpFun := exBpC, cache := some [[1, 2]] }

/-- Example batch-train state after `forward([[0, 1]])`. -/
def exStB1 : FNNState :=
  { exStB with emb := some [[0, 1]], layers := [exLayerBC],
               forwardOut := some [[2, 1, 1]] }

/-- Example batch-train state after the paired backprop (caches consumed). -/
def exStB2 : FNNState := { exStB1 with layers := [exLayerB] }

/-- Concrete abstract-network instance for the minibatch loop: training a
batch increments a counter and the misclassification rate stays at one. -/
def exOps : NetOps ℕ := { bt := fun s _ _ => s + 1, err := fun _ => 1 }

/-- Concrete abstract-network instance whose misclassification rate is
already zero, so the loop stops after the first epoch. -/
def exOps2 : NetOps ℕ := { bt := fun s _ _ => s + 1, err := fun _ => 0 }

/-
Theorems. The claim theorems are named after their claims; the unnamed
lemmas before them are shared infrastructure.
-/

/-- C8: for every real input x, `sigmoid` is computed by the two-branch
stable form (`1/(1+exp(-x))` for x ≥ 0, `exp(x)/(1+exp(x))` for x < 0) and
both branch formulas are mathematically equal to the reference definition
`1/(1+exp(-x))` of the sigmoid. -/
theorem sigmoid_stable_eq (x : ℝ) :
    sigmoid x = sigmoidRef x ∧
    sigmoid x = (if 0 ≤ x then 1 / (1 + Real.exp (-x)) else Real.exp x / (Real.exp x + 1)) ∧
    1 / (1 + Real.exp (-x)) = sigmoidRef x ∧
    Real.exp x / (1 + Real.exp x) = sigmoidRef x := by
  have hbranch : Real.exp x / (Real.exp x + 1) = 1 / (1 + Real.exp (-x)) := by
    have h3 : Real.exp x ≠ 0 := Real.exp_ne_zero x
    rw [Real.exp_neg]
    field_simp
  refine ⟨?_, rfl, rfl, ?_⟩
  · unfold sigmoid sigmoidRef
    by_cases h : 0 ≤ x
    · simp [h]
    · simp [h, hbranch]
  · rw [add_comm]
    exact hbranch

/-- Fold of `npAdd` over NaN-free, `+inf`-free summands containing a
`-inf` yields `-inf`. -/
theorem npfold_ninf (l : List NpFloat) :
    ∀ acc : NpFloat, (∀ a ∈ l, a = NpFloat.ninf ∨ ∃ r, a = NpFloat.fin r) →
    (acc = NpFloat.ninf ∨ ∃ r, acc = NpFloat.fin r) →
    (NpFloat.ninf ∈ l ∨ acc = NpFloat.ninf) →
    l.foldl npAdd acc = NpFloat.ninf := by
  induction l with
  | nil =>
    intro acc _ _ hm
    rcases hm with hm | hm
    · simp at hm
    · simpa using hm
  | cons a t ih =>
    intro acc hl hacc hm
    have ha := hl a (by simp)
    have hstep : npAdd acc a = NpFloat.ninf ∨ ∃ r, npAdd acc a = NpFloat.fin r := by
      rcases hacc with h1 | ⟨r, h1⟩ <;> rcases ha with h2 | ⟨r2, h2⟩ <;>
        subst h1 <;> subst h2 <;> simp [npAdd]
    have hm2 : NpFloat.ninf ∈ t ∨ npAdd acc a = NpFloat.ninf := by
      rcases hm with hm | hm
      · rcases List.mem_cons.1 hm with h | h
        · right
          rcases hacc with h1 | ⟨r, h1⟩ <;> subst h1 <;> rw [← h] <;> rfl
        · exact Or.inl h
      · right
        rw [hm]
        rcases ha with h2 | ⟨r2, h2⟩ <;> subst h2 <;> rfl
    have := ih (npAdd acc a) (fun b hb => hl b (by simp [hb])) hstep hm2
    simpa using this

/-- Fold of `npAdd` over the logs of positive rationals from a finite
accumulator is the finite sum of the real logarithms. -/
theorem npfold_fin (ps : Vec) :
    ∀ c : ℝ, (∀ q ∈ ps, 0 < q) →
    (ps.map npLog).foldl npAdd (NpFloat.fin c) =
      NpFloat.fin (c + (ps.map (fun q : ℚ => Real.log (q : ℝ))).sum) := by
  induction ps with
  | nil => intro c _; simp
  | cons q t ih =>
    intro c hpos
    have hq : 0 < q := hpos q (by simp)
    have hlog : npLog q = NpFloat.fin (Real.log (q : ℝ)) := by
      simp [npLog, hq.ne.symm, not_lt.2 hq.le]
    have ht : ∀ p ∈ t, 0 < p := fun p hp => hpos p (by simp [hp])
    simp only [List.map_cons, List.foldl_cons, hlog]
    have hstep : npAdd (NpFloat.fin c) (NpFloat.fin (Real.log (q : ℝ))) =
        NpFloat.fin (c + Real.log (q : ℝ)) := rfl
    rw [hstep, ih (c + Real.log (q : ℝ)) ht]
    simp only [List.map_cons, List.sum_cons]
    ring_nf

/-- The summed logs of nonnegative true-class probabilities containing a
zero give `-inf`. -/
theorem npSum_log_ninf (ps : Vec) (hpos : ∀ q ∈ ps, 0 ≤ q) (hz : 0 ∈ ps) :
    npSum (ps.map npLog) = NpFloat.ninf := by
  unfold npSum
  apply npfold_ninf
  · intro a ha
    rcases List.mem_map.1 ha with ⟨q, hq, rfl⟩
    by_cases h0 : q = 0
    · left; simp [npLog, h0]
    · right
      have hnl : ¬ q < 0 := not_lt.2 (hpos q hq)
      exact ⟨Real.log (q : ℝ), by simp [npLog, h0, hnl]⟩
  · exact Or.inr ⟨0, rfl⟩
  · exact Or.inl (List.mem_map.2 ⟨0, hz, by simp [npLog]⟩)

/-- The summed logs of positive true-class probabilities are finite. -/
theorem npSum_log_fin (ps : Vec) (hpos : ∀ q ∈ ps, 0 < q) :
    npSum (ps.map npLog) =
      NpFloat.fin ((ps.map (fun q : ℚ => Real.log (q : ℝ))).sum) := by
  unfold npSum
  simpa using npfold_fin ps 0 hpos

/-- Characterization of the fancy-indexing gather: entry i is the
true-class probability of row i. -/
theorem gatherTrue_spec (py : Mat) (y : List ℕ) (ps : Vec)
    (h : gatherTrue py y = some ps) :
    ps.length = y.length ∧
      ∀ i, i < y.length → (py.getD i []).get? (y.getD i 0) = some (ps.getD i 0) := by
  induction y generalizing py ps with
  | nil =>
    simp only [gatherTrue, Option.some.injEq] at h
    subst h
    simp
  | cons j js ih =>
    cases py with
    | nil => simp [gatherTrue] at h
    | cons r rs =>
      simp only [gatherTrue] at h
      cases hv : r.get? j with
      | none => rw [hv] at h; simp at h
      | some v =>
        cases ht : gatherTrue rs js with
        | none => rw [hv, ht] at h; simp at h
        | some t =>
          rw [hv, ht] at h
          simp only [Option.some.injEq] at h
          subst h
          obtain ⟨hl, hp⟩ := ih rs t ht
          constructor
          · simp [hl]
          · intro i hi
            cases i with
            | zero => simpa using hv
            | succ n =>
              simp only [List.getD_cons_succ]
              exact hp n (by simpa using hi)

/-- C4: for every input batch and dense label vector in range, `cost`
runs a fresh forward pass and returns exactly the negated sum of the real
logarithms of the true-class probabilities, which are gathered pointwise
as p[i, y i]. -/
theorem cost_is_neg_log_likelihood (st : FNNState) (x : List (List ℕ)) (y : List ℕ)
    (st1 : FNNState) (py : Mat) (ps : Vec)
    (hf : fnnForward st x = Except.ok (st1, py))
    (hg : gatherTrue py y = some ps)
    (hpos : ∀ q ∈ ps, 0 < q) :
    fnnCost st x y =
      Except.ok (st1, NpFloat.fin (-((ps.map (fun q : ℚ => Real.log (q : ℝ))).sum))) ∧
    ps.length = y.length ∧
    (∀ i, i < y.length → (py.getD i []).get? (y.getD i 0) = some (ps.getD i 0)) := by
  refine ⟨?_, (gatherTrue_spec py y ps hg).1, (gatherTrue_spec py y ps hg).2⟩
  unfold fnnCost
  simp only [hf, hg, npSum_log_fin ps hpos]
  rfl

/-- Witness for C4 at the concrete example: one sample with true-class
probability 1/2. -/
theorem cost_is_neg_log_likelihood_witness :
    fnnCost exSt [[0, 1]] [0] =
      Except.ok (exSt1,
        NpFloat.fin (-((([(2 : ℚ)]).map (fun q : ℚ => Real.log (q : ℝ))).sum))) ∧
    ([(2 : ℚ)]).length = ([0] : List ℕ).length ∧
    (∀ i, i < ([0] : List ℕ).length →
      (([[2, 1, 1]] : Mat).getD i []).get? (([0] : List ℕ).getD i 0) =
        some (([(2 : ℚ)]).getD i 0)) :=
  cost_is_neg_log_likelihood exSt [[0, 1]] [0] exSt1 [[2, 1, 1]] [(2 : ℚ)]
    rfl rfl (by norm_num)

/-- C1 counterexample: at the concrete zero-probability state, the
forward probability at the true class of the only sample is exactly zero,
yet `cost` does not fail - it returns the value `+inf`. -/
theorem cost_zero_prob_counterexample :
    ((fnnForward exSt0 [[0, 1]]).toOption.map (fun r => r.2)) = some [[0, 1, 2]] ∧
    ((fnnCost exSt0 [[0, 1]] [0]).toOption.map (fun r => r.2)) = some NpFloat.pinf := by
  exact ⟨rfl, rfl⟩

/-- C1 as amended: when the forward probabilities at the true classes are
nonnegative and one of them is exactly zero, `cost` reports no error; it
returns `+inf` (numpy evaluates `log(0)` to `-inf` and the negated sum is
`+inf`), which propagates as an ordinary value. -/
theorem cost_zero_prob_returns_inf (st : FNNState) (x : List (List ℕ)) (y : List ℕ)
    (st1 : FNNState) (py : Mat) (ps : Vec)
    (hf : fnnForward st x = Except.ok (st1, py))
    (hg : gatherTrue py y = some ps)
    (hpos : ∀ q ∈ ps, 0 ≤ q) (hz : 0 ∈ ps) :
    fnnCost st x y = Except.ok (st1, NpFloat.pinf) := by
  unfold fnnCost
  simp only [hf, hg, npSum_log_ninf ps hpos hz]
  rfl

/-- Witness for the amended C1 at the concrete zero-probability state. -/
theorem cost_zero_prob_returns_inf_witness :
    fnnCost exSt0 [[0, 1]] [0] = Except.ok (exSt01, NpFloat.pinf) :=
  cost_zero_prob_returns_inf exSt0 [[0, 1]] [0] exSt01 [[0, 1, 2]] [0]
    rfl rfl (by norm_num) (by simp)

/-- The layer list refreshed by a forward pass keeps every layer's
numeric maps. -/
theorem layersForward_funs (ls : List Layer) :
    ∀ v : Mat, List.Forall₂ (fun l l2 => l2.fwdFun = l.fwdFun ∧ l2.bpFun = l.bpFun)
      ls (layersForward ls v).1 := by
  induction ls with
  | nil => intro v; simp [layersForward]
  | cons l t ih =>
    intro v
    simp only [layersForward]
    exact List.Forall₂.cons ⟨rfl, rfl⟩ (ih (l.fwdFun v))

/-- Every layer holds a live cache after a forward pass. -/
theorem layersForward_cache (ls : List Layer) :
    ∀ v : Mat, ∀ l2 ∈ (layersForward ls v).1, l2.cache.isSome = true := by
  induction ls with
  | nil => intro v l2 h; simp [layersForward] at h
  | cons l t ih =>
    intro v l2 h
    simp only [layersForward, List.mem_cons] at h
    rcases h with h | h
    · subst h; rfl
    · exact ih (l.fwdFun v) l2 h

/-- State characterization of a successful `FNN.forward`: only the three
cache fields change; parameters, the word-vector table and the numeric
maps of every layer are untouched. -/
theorem fnnForward_state (st : FNNState) (x : List (List ℕ)) (st1 : FNNState) (out : Mat)
    (h : fnnForward st x = Except.ok (st1, out)) :
    st1.params = st.params ∧ st1.word2vec = st.word2vec ∧ st1.x = st.x ∧
    st1.labelY = st.labelY ∧ st1.upWordvec = st.upWordvec ∧
    st1.emb = some x ∧ st1.forwardOut = some out ∧
    (∀ l ∈ st1.layers, l.cache.isSome = true) ∧
    List.Forall₂ (fun l l2 => l2.fwdFun = l.fwdFun ∧ l2.bpFun = l.bpFun) st.layers st1.layers := by
  unfold fnnForward at h
  cases he : embForward st.word2vec x with
  | none => rw [he] at h; simp at h
  | some e0 =>
    rw [he] at h
    simp only [Except.ok.injEq, Prod.mk.injEq] at h
    obtain ⟨h1, h2⟩ := h
    subst h1
    subst h2
    exact ⟨rfl, rfl, rfl, rfl, rfl, rfl, rfl,
      layersForward_cache st.layers e0, layersForward_funs st.layers e0⟩

/-- C9: `cost` and `predict` leave every parameter tensor, the shared
word-vector table and every layer's numeric maps unchanged; the state
they produce is exactly the state of the fresh forward pass they perform,
whose output overwrites the forward cache. -/
theorem predict_cost_frame :
    (∀ (st : FNNState) (x : List (List ℕ)) (y : List ℕ) (st1 : FNNState) (c : NpFloat),
      fnnCost st x y = Except.ok (st1, c) →
      st1.params = st.params ∧ st1.word2vec = st.word2vec ∧
      List.Forall₂ (fun l l2 => l2.fwdFun = l.fwdFun ∧ l2.bpFun = l.bpFun) st.layers st1.layers ∧
      ∃ out, fnnForward st x = Except.ok (st1, out) ∧ st1.forwardOut = some out) ∧
    (∀ (st : FNNState) (x : List (List ℕ)) (st1 : FNNState) (labs : List ℤ),
      fnnPredict st x = Except.ok (st1, labs) →
      st1.params = st.params ∧ st1.word2vec = st.word2vec ∧
      List.Forall₂ (fun l l2 => l2.fwdFun = l.fwdFun ∧ l2.bpFun = l.bpFun) st.layers st1.layers ∧
      ∃ out, fnnForward st x = Except.ok (st1, out) ∧ st1.forwardOut = some out) := by
  constructor
  · intro st x y st1 c h
    unfold fnnCost at h
    cases hf : fnnForward st x with
    | error e => rw [hf] at h; simp at h
    | ok p =>
      obtain ⟨sa, py⟩ := p
      rw [hf] at h
      dsimp only at h
      cases hg : gatherTrue py y with
      | none => rw [hg] at h; simp at h
      | some ps =>
        rw [hg] at h
        dsimp only at h
        simp only [Except.ok.injEq, Prod.mk.injEq] at h
        obtain ⟨h1, _⟩ := h
        subst h1
        have hs := fnnForward_state st x sa py hf
        exact ⟨hs.1, hs.2.1, hs.2.2.2.2.2.2.2.2, py, rfl, hs.2.2.2.2.2.2.1⟩
  · intro st x st1 labs h
    unfold fnnPredict at h
    cases hf : fnnForward st x with
    | error e => rw [hf] at h; simp at h
    | ok p =>
      obtain ⟨sa, py⟩ := p
      rw [hf] at h
      dsimp only at h
      cases hm : py.mapM argmaxIdx with
      | none => rw [hm] at h; simp at h
      | some idxs =>
        rw [hm] at h
        dsimp only at h
        cases hl : idxs.mapM (fun i => alookup (yToLabel st.labelY) i) with
        | none => rw [hl] at h; simp at h
        | some labs2 =>
          rw [hl] at h
          dsimp only at h
          simp only [Except.ok.injEq, Prod.mk.injEq] at h
          obtain ⟨h1, _⟩ := h
          subst h1
          have hs := fnnForward_state st x sa py hf
          exact ⟨hs.1, hs.2.1, hs.2.2.2.2.2.2.2.2, py, rfl, hs.2.2.2.2.2.2.1⟩

/-- Witness for C9: the concrete `predict` call keeps parameters and the
word-vector table. -/
theorem predict_cost_frame_witness :
    exSt1.params = exSt.params ∧ exSt1.word2vec = exSt.word2vec :=
  ⟨(predict_cost_frame.2 exSt [[0, 1]] exSt1 [5] rfl).1,
   (predict_cost_frame.2 exSt [[0, 1]] exSt1 [5] rfl).2.1⟩

/-- A successful association lookup comes from a pair of the list. -/
theorem alookup_mem {α β : Type} [DecidableEq α] (l : List (α × β)) (a : α) (b : β) :
    alookup l a = some b → (a, b) ∈ l := by
  induction l with
  | nil => intro h; simp [alookup] at h
  | cons p t ih =>
    intro h
    simp only [alookup] at h
    by_cases hpa : p.1 = a
    · rw [if_pos hpa] at h
      simp only [Option.some.injEq] at h
      subst h
      subst hpa
      exact List.mem_cons_self _ _
    · rw [if_neg hpa] at h
      exact List.mem_cons.2 (Or.inr (ih h))

/-- A key occurring among the first components can be looked up. -/
theorem alookup_of_mem_fst {α β : Type} [DecidableEq α] (l : List (α × β)) (a : α) :
    a ∈ l.map Prod.fst → ∃ b, alookup l a = some b := by
  induction l with
  | nil => intro h; simp at h
  | cons p t ih =>
    intro h
    by_cases hpa : p.1 = a
    · exact ⟨p.2, by simp [alookup, hpa]⟩
    · have hmem : a ∈ t.map Prod.fst := by
        simp only [List.map_cons, List.mem_cons] at h
        rcases h with h | h
        · exact absurd h.symm hpa
        · exact h
      obtain ⟨b, hb⟩ := ih hmem
      exact ⟨b, by simp [alookup, hpa, hb]⟩

/-- With distinct second components, a lookup inverts through the swapped
pair list. -/
theorem alookup_swap {α β : Type} [DecidableEq α] [DecidableEq β] (l : List (α × β))
    (hnd : (l.map Prod.snd).Nodup) (a : α) (b : β) (h : alookup l a = some b) :
    alookup (l.map Prod.swap) b = some a := by
  induction l with
  | nil => simp [alookup] at h
  | cons p t ih =>
    simp only [alookup] at h
    simp only [List.map_cons, List.nodup_cons] at hnd
    by_cases hpa : p.1 = a
    · rw [if_pos hpa] at h
      simp only [Option.some.injEq] at h
      subst h
      simp [alookup, Prod.swap, hpa]
    · rw [if_neg hpa] at h
      have hmem := alookup_mem t a b h
      have hb : b ∈ t.map Prod.snd := List.mem_map.2 ⟨(a, b), hmem, rfl⟩
      have hne : p.2 ≠ b := fun he => hnd.1 (he ▸ hb)
      simp only [List.map_cons, alookup, Prod.swap]
      rw [if_neg hne]
      exact ih hnd.2 h

/-- A successful Option-valued `mapM` maps members to members. -/
theorem mapM_mem {α β : Type} (f : α → Option β) :
    ∀ (l : List α) (r : List β), l.mapM f = some r → ∀ b ∈ r, ∃ a ∈ l, f a = some b := by
  intro l
  induction l with
  | nil =>
    intro r h b hb
    simp only [List.mapM_nil, Option.pure_def, Option.some.injEq] at h
    subst h
    simp at hb
  | cons a t ih =>
    intro r h b hb
    simp only [List.mapM_cons, Option.pure_def, Option.bind_eq_bind] at h
    cases hfa : f a with
    | none => rw [hfa] at h; simp at h
    | some v =>
      rw [hfa] at h
      cases ht : t.mapM f with
      | none => rw [ht] at h; simp at h
      | some vs =>
        rw [ht] at h
        simp only [Option.some_bind, Option.some.injEq] at h
        subst h
        rcases List.mem_cons.1 hb with hb | hb
        · exact ⟨a, by simp, by rw [hfa, hb]⟩
        · obtain ⟨a2, ha2, hfa2⟩ := ih vs ht b hb
          exact ⟨a2, by simp [ha2], hfa2⟩

/-- C6: construction builds a bijection between the distinct raw labels
and the dense index set 0..K-1 together with its inverse, and `predict`
maps each row's argmax index back through the inverse, so its outputs are
drawn from the original label set. -/
theorem label_bijection_predict (ly : List ℤ) :
    (labelSet ly).Nodup ∧
    (labelToY ly).map Prod.fst = labelSet ly ∧
    (labelToY ly).map Prod.snd = List.range (labelSet ly).length ∧
    (∀ lab ∈ labelSet ly, ∃ i, i < (labelSet ly).length ∧
      alookup (labelToY ly) lab = some i ∧ alookup (yToLabel ly) i = some lab) ∧
    (∀ i, i < (labelSet ly).length → ∃ lab, lab ∈ labelSet ly ∧
      alookup (yToLabel ly) i = some lab ∧ alookup (labelToY ly) lab = some i) ∧
    (∀ (st : FNNState) (x : List (List ℕ)) (st1 : FNNState) (labs : List ℤ),
      st.labelY = ly → fnnPredict st x = Except.ok (st1, labs) →
      (∀ lab ∈ labs, lab ∈ labelSet ly) ∧
      ∃ py idxs, fnnForward st x = Except.ok (st1, py) ∧
        py.mapM argmaxIdx = some idxs ∧
        idxs.mapM (fun i => alookup (yToLabel ly) i) = some labs) := by
  have hfst : (labelToY ly).map Prod.fst = labelSet ly := by
    unfold labelToY
    exact List.map_fst_zip _ _ (by simp)
  have hsnd : (labelToY ly).map Prod.snd = List.range (labelSet ly).length := by
    unfold labelToY
    exact List.map_snd_zip _ _ (by simp)
  have hndsnd : ((labelToY ly).map Prod.snd).Nodup := by
    rw [hsnd]; exact List.nodup_range _
  have hmemset : ∀ (a : ℤ) (b : ℕ), (a, b) ∈ labelToY ly → a ∈ labelSet ly ∧ b < (labelSet ly).length := by
    intro a b hab
    constructor
    · have ha : a ∈ (labelToY ly).map Prod.fst := List.mem_map.2 ⟨(a, b), hab, rfl⟩
      rwa [hfst] at ha
    · have hb : b ∈ (labelToY ly).map Prod.snd := List.mem_map.2 ⟨(a, b), hab, rfl⟩
      rw [hsnd] at hb
      exact List.mem_range.1 hb
  have hswap : (yToLabel ly).map Prod.swap = labelToY ly := by
    unfold yToLabel
    rw [List.map_map]
    have : (Prod.swap ∘ Prod.swap : ℤ × ℕ → ℤ × ℕ) = id := by
      funext p; simp
    rw [this, List.map_id]
  have hyfst : (yToLabel ly).map Prod.fst = List.range (labelSet ly).length := by
    unfold yToLabel
    rw [List.map_map]
    have : (Prod.fst ∘ Prod.swap : ℤ × ℕ → ℕ) = Prod.snd := by
      funext p; simp
    rw [this, hsnd]
  have hysnd : ((yToLabel ly).map Prod.snd).Nodup := by
    unfold yToLabel
    rw [List.map_map]
    have : (Prod.snd ∘ Prod.swap : ℤ × ℕ → ℤ) = Prod.fst := by
      funext p; simp
    rw [this, hfst]
    exact List.nodup_dedup ly
  have hylab : ∀ (i : ℕ) (lab : ℤ), alookup (yToLabel ly) i = some lab → lab ∈ labelSet ly := by
    intro i lab h
    have hmem := alookup_mem (yToLabel ly) i lab h
    unfold yToLabel at hmem
    rcases List.mem_map.1 hmem with ⟨q, hq, hqe⟩
    have hq2 : q = (lab, i) := by
      have := congrArg Prod.swap hqe
      simpa using this
    subst hq2
    exact (hmemset lab i hq).1
  refine ⟨List.nodup_dedup ly, hfst, hsnd, ?_, ?_, ?_⟩
  · intro lab hlab
    obtain ⟨i, hi⟩ := alookup_of_mem_fst (labelToY ly) lab (by rw [hfst]; exact hlab)
    have hmem := alookup_mem _ _ _ hi
    refine ⟨i, (hmemset lab i hmem).2, hi, ?_⟩
    have := alookup_swap (labelToY ly) hndsnd lab i hi
    unfold yToLabel
    exact this
  · intro i hi
    obtain ⟨lab, hlab⟩ := alookup_of_mem_fst (yToLabel ly) i
      (by rw [hyfst]; exact List.mem_range.2 hi)
    refine ⟨lab, hylab i lab hlab, hlab, ?_⟩
    have := alookup_swap (yToLabel ly) hysnd i lab hlab
    rwa [hswap] at this
  · intro st x st1 labs hly h
    unfold fnnPredict at h
    cases hf : fnnForward st x with
    | error e => rw [hf] at h; simp at h
    | ok p =>
      obtain ⟨sa, py⟩ := p
      rw [hf] at h
      dsimp only at h
      cases hm : py.mapM argmaxIdx with
      | none => rw [hm] at h; simp at h
      | some idxs =>
        rw [hm] at h
        dsimp only at h
        cases hl : idxs.mapM (fun i => alookup (yToLabel st.labelY) i) with
        | none => rw [hl] at h; simp at h
        | some labs2 =>
          rw [hl] at h
          dsimp only at h
          simp only [Except.ok.injEq, Prod.mk.injEq] at h
          obtain ⟨h1, h2⟩ := h
          subst h1
          subst h2
          rw [hly] at hl
          constructor
          · intro lab hlab
            obtain ⟨i, _, hfi⟩ := mapM_mem _ idxs labs2 hl lab hlab
            exact hylab i lab hfi
          · exact ⟨py, idxs, rfl, hm, hl⟩

/-- Witness for C6 at labels [5, 5, 2, 9]: the dense set has three
indices and the concrete `predict` output is drawn from the original
labels. -/
theorem label_bijection_predict_witness :
    labelSet [5, 5, 2, 9] = [5, 2, 9] ∧
    (∀ lab ∈ ([5] : List ℤ), lab ∈ labelSet [5, 5, 2, 9]) :=
  ⟨rfl,
   ((label_bijection_predict [5, 5, 2, 9]).2.2.2.2.2 exSt [[0, 1]] exSt1 [5] rfl rfl).1⟩

/-- Backward pass over a reversed layer stack whose caches are all live:
it succeeds, clears every cache, and computes the reference recursion
`backSpec`, whose per-layer gradient lists are flattened in construction
order. -/
theorem layersBackprop_spec (ls : List Layer) :
    ∀ g : Mat, (∀ l ∈ ls, l.cache.isSome = true) →
    layersBackprop ls g =
      Except.ok (ls.map (fun l => { l with cache := none }),
        ((backSpec (ls.map (fun l => (l.cache.getD [], l.bpFun))) g).1,
         (backSpec (ls.map (fun l => (l.cache.getD [], l.bpFun))) g).2.flatten)) := by
  induction ls with
  | nil => intro g _; simp [layersBackprop, backSpec]
  | cons l t ih =>
    intro g hc
    obtain ⟨c, hc0⟩ := Option.isSome_iff_exists.1 (hc l (List.mem_cons_self l t))
    have ht : ∀ a ∈ t, a.cache.isSome = true := fun a ha => hc a (List.mem_cons.2 (Or.inr ha))
    simp only [layersBackprop, hc0]
    rw [ih (l.bpFun c g).1 ht]
    simp [backSpec, hc0]

/-- A successful backward pass leaves every returned layer with a dead
cache and preserves the layer count. -/
theorem layersBackprop_state (ls : List Layer) :
    ∀ (g : Mat) (ls2 : List Layer) (r : Mat × List Mat),
    layersBackprop ls g = Except.ok (ls2, r) →
    (∀ l ∈ ls2, l.cache = none) ∧ ls2.length = ls.length := by
  induction ls with
  | nil =>
    intro g ls2 r h
    simp only [layersBackprop, Except.ok.injEq, Prod.mk.injEq] at h
    obtain ⟨h1, _⟩ := h
    subst h1
    simp
  | cons l t ih =>
    intro g ls2 r h
    simp only [layersBackprop] at h
    cases hc : l.cache with
    | none => rw [hc] at h; simp at h
    | some c =>
      rw [hc] at h
      dsimp only at h
      cases hr : layersBackprop t (l.bpFun c g).1 with
      | error e => rw [hr] at h; simp at h
      | ok p =>
        obtain ⟨ls3, r3⟩ := p
        rw [hr] at h
        dsimp only at h
        simp only [Except.ok.injEq, Prod.mk.injEq] at h
        obtain ⟨h1, _⟩ := h
        subst h1
        obtain ⟨hA, hB⟩ := ih _ _ _ hr
        constructor
        · intro a ha
          rcases List.mem_cons.1 ha with ha | ha
          · rw [ha]
          · exact hA a ha
        · simp [hB]

/-- A layer whose cache is dead makes the backward pass fail at once. -/
theorem layersBackprop_cache_error (l : Layer) (t : List Layer) (g : Mat)
    (hc : l.cache = none) : layersBackprop (l :: t) g = Except.error () := by
  simp [layersBackprop, hc]

/-- The seeding loop succeeds when the labels cover the batch and stay in
each row's range. -/
theorem seedGrad_ok (p : Mat) :
    ∀ y : List ℕ, p.length ≤ y.length →
    (∀ i, i < p.length → y.getD i 0 < (p.getD i []).length) →
    seedGrad p y = some (seedOk p y) := by
  induction p with
  | nil => intro y _ _; simp [seedGrad, seedOk]
  | cons r rs ih =>
    intro y hlen hin
    cases y with
    | nil => simp at hlen
    | cons j js =>
      have hj : j < r.length := by simpa using hin 0 (by simp)
      have hlen2 : rs.length ≤ js.length := by simpa using hlen
      have hin2 : ∀ i, i < rs.length → js.getD i 0 < (rs.getD i []).length := by
        intro i hi
        simpa using hin (i + 1) (by simpa using hi)
      simp only [seedGrad, if_pos hj]
      rw [ih js hlen2 hin2]
      simp [seedOk]

/-- A seeded row is zero except at the true-class column, where it is
`-1/p`. -/
theorem seedRow_getD (r : Vec) (j k : ℕ) (hk : k < r.length) :
    (seedRow r j).getD k 0 = if k = j then -1 / (r.getD k 0) else 0 := by
  unfold seedRow
  by_cases hkj : k = j
  · subst hkj
    rw [if_pos rfl]
    rw [List.getD_eq_getElem?_getD]
    rw [List.getElem?_set_self (by simpa using hk)]
    rfl
  · rw [if_neg hkj]
    rw [List.getD_eq_getElem?_getD]
    rw [List.getElem?_set_ne (fun he => hkj he.symm)]
    rw [List.getElem?_replicate_of_lt (by simpa using hk)]
    rfl

/-- Entrywise characterization of the seeded gradient matrix. -/
theorem seedOk_entry (p : Mat) :
    ∀ (y : List ℕ) (i j : ℕ), i < p.length → p.length ≤ y.length →
    j < (p.getD i []).length →
    ((seedOk p y).getD i []).getD j 0 =
      if j = y.getD i 0 then -1 / ((p.getD i []).getD j 0) else 0 := by
  induction p with
  | nil => intro y i j hi _ _; simp at hi
  | cons r rs ih =>
    intro y i j hi hlen hj
    cases y with
    | nil => simp at hlen
    | cons k ks =>
      cases i with
      | zero =>
        simp only [seedOk, List.zipWith_cons_cons, List.getD_cons_zero] at hj ⊢
        exact seedRow_getD r k j hj
      | succ n =>
        simp only [seedOk, List.zipWith_cons_cons, List.getD_cons_succ] at hj ⊢
        exact ih ks n j (by simpa using hi) (by simpa using hlen) hj

/-- The per-layer gradient list of the reference recursion has one entry
per layer. -/
theorem backSpec_len (l : List (Mat × (Mat → Mat → Mat × List Mat))) :
    ∀ g, (backSpec l g).2.length = l.length := by
  induction l with
  | nil => intro g; rfl
  | cons cf t ih => intro g; simp [backSpec, ih]

/-- The seeded matrix has one row per forward-output row. -/
theorem seedOk_len (p : Mat) (y : List ℕ) (hlen : p.length ≤ y.length) :
    (seedOk p y).length = p.length := by
  unfold seedOk
  rw [List.length_zipWith]
  omega

/-- C3: `backprop` seeds the output gradient as zeros except `-1/p[i,y i]`
at the true class, folds it through the layer stack in reverse
construction order (clearing the caches), collects the per-layer parameter
gradients flattened in construction order - one entry per layer, aligned
with the construction-time parameter list - and returns the gradient that
reaches the embedding layer. The true-class probabilities are assumed
nonzero so that exact division models the float division of the source. -/
theorem backprop_seeds_and_collects (st : FNNState) (y : List ℕ) (p : Mat)
    (hfo : st.forwardOut = some p)
    (hlen : p.length ≤ y.length)
    (hin : ∀ i, i < p.length → y.getD i 0 < (p.getD i []).length)
    (_hnz : ∀ i, i < p.length → (p.getD i []).getD (y.getD i 0) 0 ≠ 0)
    (hc : ∀ l ∈ st.layers, l.cache.isSome = true) :
    fnnBackprop st y =
      Except.ok ({ st with layers := st.layers.map (fun l => { l with cache := none }) },
        ((backSpec ((st.layers.map (fun l => (l.cache.getD [], l.bpFun))).reverse) (seedOk p y)).1,
         (backSpec ((st.layers.map (fun l => (l.cache.getD [], l.bpFun))).reverse) (seedOk p y)).2.flatten)) ∧
    (seedOk p y).length = p.length ∧
    (∀ i j, i < p.length → j < (p.getD i []).length →
      ((seedOk p y).getD i []).getD j 0 =
        if j = y.getD i 0 then -1 / ((p.getD i []).getD j 0) else 0) ∧
    (backSpec ((st.layers.map (fun l => (l.cache.getD [], l.bpFun))).reverse) (seedOk p y)).2.length
      = st.layers.length := by
  refine ⟨?_, seedOk_len p y hlen, fun i j hi hj => seedOk_entry p y i j hi hlen hj, ?_⟩
  · unfold fnnBackprop
    rw [hfo]
    dsimp only
    rw [seedGrad_ok p y hlen hin]
    dsimp only
    have hcr : ∀ l ∈ st.layers.reverse, l.cache.isSome = true :=
      fun l hl => hc l (List.mem_reverse.1 hl)
    rw [layersBackprop_spec st.layers.reverse (seedOk p y) hcr]
    simp only [List.map_reverse, List.reverse_reverse]
  · rw [backSpec_len, List.length_reverse, List.length_map]

/-- Witness for C3 at the concrete post-forward state. -/
theorem backprop_seeds_and_collects_witness :
    fnnBackprop exSt1 [0] =
      Except.ok ({ exSt1 with layers := exSt1.layers.map (fun l => { l with cache := none }) },
        ((backSpec ((exSt1.layers.map (fun l => (l.cache.getD [], l.bpFun))).reverse)
            (seedOk [[2, 1, 1]] [0])).1,
         (backSpec ((exSt1.layers.map (fun l => (l.cache.getD [], l.bpFun))).reverse)
            (seedOk [[2, 1, 1]] [0])).2.flatten)) :=
  (backprop_seeds_and_collects exSt1 [0] [[2, 1, 1]] rfl (by decide) (by decide)
    (by norm_num) (by simp [exSt1, exLayerC])).1

/-- C7: `backprop` on an orchestrator whose forward output was never
computed fails with a state error; a forward pass creates the forward
caches; and the paired backprop consumes the layer caches, so a second
backprop without a fresh forward fails as well. -/
theorem backprop_requires_live_forward :
    (∀ (st : FNNState) (y : List ℕ), st.forwardOut = none →
      fnnBackprop st y = Except.error ()) ∧
    (∀ (st : FNNState) (x : List (List ℕ)) (st1 : FNNState) (out : Mat),
      fnnForward st x = Except.ok (st1, out) →
      st1.forwardOut = some out ∧ st1.emb = some x ∧
      ∀ l ∈ st1.layers, l.cache.isSome = true) ∧
    (∀ (st : FNNState) (y y2 : List ℕ) (st1 : FNNState) (r : Mat × List Mat),
      st.layers ≠ [] → fnnBackprop st y = Except.ok (st1, r) →
      fnnBackprop st1 y2 = Except.error ()) := by
  refine ⟨?_, ?_, ?_⟩
  · intro st y hfo
    unfold fnnBackprop
    rw [hfo]
  · intro st x st1 out h
    have hs := fnnForward_state st x st1 out h
    exact ⟨hs.2.2.2.2.2.2.1, hs.2.2.2.2.2.1, hs.2.2.2.2.2.2.2.1⟩
  · intro st y y2 st1 r hne h
    unfold fnnBackprop at h
    cases hfo : st.forwardOut with
    | none => rw [hfo] at h; simp at h
    | some p =>
      rw [hfo] at h
      dsimp only at h
      cases hsg : seedGrad p y with
      | none => rw [hsg] at h; simp at h
      | some g0 =>
        rw [hsg] at h
        dsimp only at h
        cases hlb : layersBackprop st.layers.reverse g0 with
        | error e => rw [hlb] at h; simp at h
        | ok q =>
          obtain ⟨lsr, r2⟩ := q
          rw [hlb] at h
          dsimp only at h
          simp only [Except.ok.injEq, Prod.mk.injEq] at h
          obtain ⟨h1, _⟩ := h
          subst h1
          obtain ⟨hclear, hlenr⟩ := layersBackprop_state st.layers.reverse g0 lsr r2 hlb
          unfold fnnBackprop
          dsimp only
          cases hsg2 : seedGrad p y2 with
          | none => rfl
          | some g02 =>
            dsimp only
            rw [List.reverse_reverse]
            cases lsr with
            | nil =>
              exfalso
              rw [List.length_reverse] at hlenr
              exact hne (List.length_eq_zero.1 hlenr.symm)
            | cons a t =>
              rw [layersBackprop_cache_error a t g02 (hclear a (List.mem_cons_self a t))]

/-- Witness for C7: `backprop` on the freshly constructed example state
(no forward pass ever) fails. -/
theorem backprop_requires_live_forward_witness :
    fnnBackprop exSt [0] = Except.error () :=
  backprop_requires_live_forward.1 exSt [0] rfl

/-- A successful Option-valued `mapM` succeeds on every member. -/
theorem mapM_forall {α β : Type} (f : α → Option β) :
    ∀ (l : List α) (r : List β), l.mapM f = some r → ∀ a ∈ l, ∃ b, f a = some b := by
  intro l
  induction l with
  | nil => intro r _ a ha; simp at ha
  | cons a t ih =>
    intro r h b hb
    simp only [List.mapM_cons, Option.pure_def, Option.bind_eq_bind] at h
    cases hfa : f a with
    | none => rw [hfa] at h; simp at h
    | some v =>
      rw [hfa] at h
      cases ht : t.mapM f with
      | none => rw [ht] at h; simp at h
      | some vs =>
        rcases List.mem_cons.1 hb with hb | hb
        · exact ⟨v, by rw [hb]; exact hfa⟩
        · exact ih vs ht b hb

/-- A successful embedding forward pass certifies that every token index
of the batch is within the table. -/
theorem embForward_bounds (w2v : Mat) :
    ∀ (x : List (List ℕ)) (e : Mat), embForward w2v x = some e →
    ∀ t ∈ x.flatten, t < w2v.length := by
  intro x
  induction x with
  | nil => intro e _ t ht; simp at ht
  | cons s xs ih =>
    intro e h t ht
    simp only [embForward, List.mapM_cons, Option.pure_def, Option.bind_eq_bind] at h
    cases hr : embRow w2v s with
    | none => rw [hr] at h; simp at h
    | some v =>
      rw [hr] at h
      cases hxs : xs.mapM (embRow w2v) with
      | none => rw [hxs] at h; simp at h
      | some vs =>
        rw [List.flatten_cons] at ht
        rcases List.mem_append.1 ht with hts | htx
        · unfold embRow at hr
          cases hm : s.mapM (fun u => w2v.get? u) with
          | none => rw [hm] at hr; simp at hr
          | some rows =>
            obtain ⟨row, hrow⟩ := mapM_forall _ s rows hm t hts
            by_contra hge
            rw [List.get?_eq_none.2 (by omega)] at hrow
            exact Option.noConfusion hrow
        · exact ih vs hxs t htx

/-- An index below the length can be read with `get?`, yielding the
`getD` value. -/
theorem get?_getD {α : Type} (l : List α) (n : ℕ) (d : α) (h : n < l.length) :
    l.get? n = some (l.getD n d) := by
  rw [List.get?_eq_getElem?, List.getD_eq_getElem?_getD]
  cases hx : l[n]? with
  | none =>
    exfalso
    rw [List.getElem?_eq_none_iff] at hx
    omega
  | some a => simp

/-- Applying the sparse updates over a duplicate-free index list touches
each listed row exactly once (subtracting the scaled gradient) and leaves
every other row unchanged. -/
theorem applyEmbUpdates_get (lr : ℚ) (f : ℕ → Vec) :
    ∀ (idxs : List ℕ) (w2v : Mat), idxs.Nodup → (∀ i ∈ idxs, i < w2v.length) →
    ∀ ridx, ridx < w2v.length →
    (applyEmbUpdates lr w2v (idxs.zip (idxs.map f))).get? ridx =
      some (if ridx ∈ idxs then vsub (w2v.getD ridx []) (vsmul lr (f ridx))
            else w2v.getD ridx []) := by
  intro idxs
  induction idxs with
  | nil =>
    intro w2v _ _ ridx hr
    simp only [List.map_nil, List.zip_nil_left, applyEmbUpdates, List.foldl_nil]
    rw [get?_getD w2v ridx [] hr]
    simp
  | cons i t ih =>
    intro w2v hnd hlt ridx hr
    obtain ⟨hni, hndt⟩ := List.nodup_cons.1 hnd
    have hiw : i < w2v.length := hlt i (List.mem_cons_self i t)
    simp only [List.map_cons, List.zip_cons_cons, applyEmbUpdates, List.foldl_cons]
    have hlen2 : (w2v.set i (vsub (w2v.getD i []) (vsmul lr (f i)))).length = w2v.length := by
      simp
    have ih2 := ih (w2v.set i (vsub (w2v.getD i []) (vsmul lr (f i)))) hndt
      (fun j hj => by rw [hlen2]; exact hlt j (List.mem_cons.2 (Or.inr hj)))
      ridx (by rw [hlen2]; exact hr)
    simp only [applyEmbUpdates] at ih2
    rw [ih2]
    by_cases hri : ridx = i
    · subst hri
      rw [if_neg hni, if_pos (List.mem_cons_self ridx t)]
      have hv : (w2v.set ridx (vsub (w2v.getD ridx []) (vsmul lr (f ridx)))).getD ridx []
          = vsub (w2v.getD ridx []) (vsmul lr (f ridx)) := by
        rw [List.getD_eq_getElem?_getD, List.getElem?_set_self (by simpa using hr)]
        rfl
      rw [hv]
    · have hv : (w2v.set i (vsub (w2v.getD i []) (vsmul lr (f i)))).getD ridx []
          = w2v.getD ridx [] := by
        rw [List.getD_eq_getElem?_getD, List.getElem?_set_ne (fun he => hri he.symm),
          ← List.getD_eq_getElem?_getD]
      rw [hv]
      by_cases hrt : ridx ∈ t
      · rw [if_pos hrt, if_pos (List.mem_cons.2 (Or.inr hrt))]
      · rw [if_neg hrt, if_neg (by simp [List.mem_cons, hri, hrt])]

/-- The sparse update preserves the table's row count. -/
theorem applyEmbUpdates_length (lr : ℚ) :
    ∀ (ups : List (ℕ × Vec)) (w2v : Mat),
    (applyEmbUpdates lr w2v ups).length = w2v.length := by
  intro ups
  induction ups with
  | nil => intro w2v; rfl
  | cons u t ih =>
    intro w2v
    simp only [applyEmbUpdates, List.foldl_cons]
    have := ih (w2v.set u.1 (vsub (w2v.getD u.1 []) (vsmul lr u.2)))
    simp only [applyEmbUpdates] at this
    rw [this]
    simp

/-- A successful backprop changes nothing but the layer caches. -/
theorem fnnBackprop_state (st : FNNState) (y : List ℕ) (st1 : FNNState) (r : Mat × List Mat)
    (h : fnnBackprop st y = Except.ok (st1, r)) :
    st1.params = st.params ∧ st1.word2vec = st.word2vec ∧ st1.emb = st.emb ∧
    st1.upWordvec = st.upWordvec ∧ st1.forwardOut = st.forwardOut ∧
    st1.x = st.x ∧ st1.labelY = st.labelY := by
  unfold fnnBackprop at h
  cases hfo : st.forwardOut with
  | none => rw [hfo] at h; simp at h
  | some p =>
    rw [hfo] at h
    dsimp only at h
    cases hsg : seedGrad p y with
    | none => rw [hsg] at h; simp at h
    | some g0 =>
      rw [hsg] at h
      dsimp only at h
      cases hlb : layersBackprop st.layers.reverse g0 with
      | error e => rw [hlb] at h; simp at h
      | ok q =>
        obtain ⟨lsr, r2⟩ := q
        rw [hlb] at h
        dsimp only at h
        simp only [Except.ok.injEq, Prod.mk.injEq] at h
        obtain ⟨h1, _⟩ := h
        subst h1
        exact ⟨rfl, rfl, rfl, rfl, rfl, rfl, rfl⟩

/-- The embedding forward succeeds on a successful `FNN.forward`. -/
theorem fnnForward_emb (st : FNNState) (x : List (List ℕ)) (st1 : FNNState) (out : Mat)
    (h : fnnForward st x = Except.ok (st1, out)) :
    ∃ e0, embForward st.word2vec x = some e0 := by
  unfold fnnForward at h
  cases he : embForward st.word2vec x with
  | none => rw [he] at h; simp at h
  | some e0 => exact ⟨e0, rfl⟩

/-- C5: `batch_train` runs forward then backprop, updates every parameter
positionally as `parameter -= lr * gradient` (when the gradient list
matches the parameter list in length the update is the plain zip), and
then - exactly when the embedding-update flag is on - subtracts
`lr * accumulated gradient` from each distinct touched word-vector row,
leaving untouched rows and, when the flag is off, the whole table
unchanged. -/
theorem batch_train_updates (st : FNNState) (x : List (List ℕ)) (y : List ℕ) (lr : ℚ)
    (st1 : FNNState) (out : Mat) (st2 : FNNState) (r : Mat × List Mat)
    (hf : fnnForward st x = Except.ok (st1, out))
    (hb : fnnBackprop st1 y = Except.ok (st2, r)) :
    (st.upWordvec = false →
      fnnBatchTrain st x y lr = Except.ok { st2 with params := updParams lr st.params r.2 }) ∧
    (st.upWordvec = true →
      fnnBatchTrain st x y lr = Except.ok
        { st2 with params := updParams lr st.params r.2,
                   word2vec := applyEmbUpdates lr st.word2vec
                     ((x.flatten.dedup).zip ((x.flatten.dedup).map
                        (occGrads (matWidth st.word2vec) x r.1))),
                   emb := none } ∧
      x.flatten.dedup.Nodup ∧
      (applyEmbUpdates lr st.word2vec
          ((x.flatten.dedup).zip ((x.flatten.dedup).map
             (occGrads (matWidth st.word2vec) x r.1)))).length = st.word2vec.length ∧
      (∀ ridx, ridx < st.word2vec.length →
        (applyEmbUpdates lr st.word2vec
            ((x.flatten.dedup).zip ((x.flatten.dedup).map
               (occGrads (matWidth st.word2vec) x r.1)))).get? ridx =
          some (if ridx ∈ x.flatten.dedup then
              vsub (st.word2vec.getD ridx [])
                (vsmul lr (occGrads (matWidth st.word2vec) x r.1 ridx))
            else st.word2vec.getD ridx []))) ∧
    (r.2.length = st.params.length →
      updParams lr st.params r.2 =
        List.zipWith (fun pp g => msub pp (msmul lr g)) st.params r.2) := by
  have hfs := fnnForward_state st x st1 out hf
  have hbs := fnnBackprop_state st1 y st2 r hb
  have hp2 : st2.params = st.params := by rw [hbs.1, hfs.1]
  have hw2 : st2.word2vec = st.word2vec := by rw [hbs.2.1, hfs.2.1]
  have hu2 : st2.upWordvec = st.upWordvec := by rw [hbs.2.2.2.1, hfs.2.2.2.2.1]
  have he2 : st2.emb = some x := by rw [hbs.2.2.1, hfs.2.2.2.2.2.1]
  have hbounds : ∀ t ∈ x.flatten.dedup, t < st.word2vec.length := by
    intro t ht
    obtain ⟨e0, he0⟩ := fnnForward_emb st x st1 out hf
    exact embForward_bounds st.word2vec x e0 he0 t (List.mem_dedup.1 ht)
  refine ⟨?_, ?_, ?_⟩
  · intro hup
    unfold fnnBatchTrain
    rw [hf]
    dsimp only
    rw [hb]
    dsimp only
    rw [hp2, hu2, hup]
    rfl
  · intro hup
    constructor
    · unfold fnnBatchTrain
      rw [hf]
      dsimp only
      rw [hb]
      dsimp only
      rw [hp2, hw2, hu2, hup, he2]
      rfl
    · refine ⟨List.nodup_dedup _, ?_, ?_⟩
      · exact applyEmbUpdates_length lr _ st.word2vec
      · intro ridx hr
        exact applyEmbUpdates_get lr (occGrads (matWidth st.word2vec) x r.1)
          x.flatten.dedup st.word2vec (List.nodup_dedup _) hbounds ridx hr
  · intro hl
    unfold updParams
    rw [hl, List.drop_length, List.append_nil]

/-- Witness for C5: the concrete batch-train call succeeds. -/
theorem batch_train_updates_witness :
    (fnnBatchTrain exStB [[0, 1]] [0] 1).toOption.isSome = true := by
  have h := (batch_train_updates exStB [[0, 1]] [0] 1 exStB1 [[2, 1, 1]] exStB2
    ([[7, 8]], [[[9]]]) rfl rfl).2.1 rfl
  rw [h.1]
  rfl

/-- Dropping distributes over zip. -/
theorem zip_drop_eq {α β : Type} :
    ∀ (n : ℕ) (l1 : List α) (l2 : List β),
    (l1.zip l2).drop n = (l1.drop n).zip (l2.drop n) := by
  intro n
  induction n with
  | zero => intro l1 l2; simp
  | succ k ih =>
    intro l1 l2
    cases l1 with
    | nil => simp
    | cons a t1 =>
      cases l2 with
      | nil => simp
      | cons b t2 =>
        simp only [List.zip_cons_cons, List.drop_succ_cons]
        exact ih t1 t2

/-- Taking distributes over zip. -/
theorem zip_take_eq {α β : Type} :
    ∀ (n : ℕ) (l1 : List α) (l2 : List β),
    (l1.zip l2).take n = (l1.take n).zip (l2.take n) := by
  intro n
  induction n with
  | zero => intro l1 l2; simp
  | succ k ih =>
    intro l1 l2
    cases l1 with
    | nil => simp
    | cons a t1 =>
      cases l2 with
      | nil => simp
      | cons b t2 =>
        simp only [List.zip_cons_cons, List.take_succ_cons]
        rw [ih t1 t2]

/-- The slice of one full minibatch is a drop followed by a take of m. -/
theorem sliceL_batch {α : Type} (l : List α) (m i : ℕ) :
    sliceL l (i * m) ((i + 1) * m) = (l.drop (i * m)).take m := by
  unfold sliceL
  congr 1
  rw [Nat.succ_mul]
  omega

/-- The first slice is the plain take. -/
theorem sliceL_zero {α : Type} (l : List α) (m : ℕ) :
    sliceL l (0 * m) ((0 + 1) * m) = l.take m := by
  simp [sliceL]

/-- The chunk partition of the empty list is empty. -/
theorem chunksOf_nil {α : Type} (m : ℕ) : chunksOf m ([] : List α) = [] := by
  rw [chunksOf]
  simp

/-- Unfolding equation of the chunk partition on a nonempty list. -/
theorem chunksOf_eq {α : Type} (m : ℕ) (l : List α) (hm : m ≠ 0) (hl : l ≠ []) :
    chunksOf m l = l.take m :: chunksOf m (l.drop m) := by
  rw [chunksOf]
  have hcond : ¬(m = 0 ∨ l.length = 0) := by
    push_neg
    exact ⟨hm, by simpa [List.length_eq_zero] using hl⟩
  rw [dif_neg hcond]

/-- The chunk partition of a nonempty list is nonempty. -/
theorem chunksOf_ne_nil {α : Type} (m : ℕ) (hm : m ≠ 0) (l : List α) (hl : l ≠ []) :
    chunksOf m l ≠ [] := by
  rw [chunksOf_eq m l hm hl]
  simp

/-- The chunks concatenate back to the original list: the partition loses
and duplicates nothing and keeps the order. -/
theorem chunksOf_flatten {α : Type} (m : ℕ) (hm : m ≠ 0) :
    ∀ (n : ℕ) (l : List α), l.length ≤ n → (chunksOf m l).flatten = l := by
  intro n
  induction n with
  | zero =>
    intro l hl
    have hnil : l = [] := List.length_eq_zero.1 (Nat.le_zero.1 hl)
    subst hnil
    simp [chunksOf_nil]
  | succ k ih =>
    intro l hl
    by_cases hnil : l = []
    · subst hnil; simp [chunksOf_nil]
    · rw [chunksOf_eq m l hm hnil, List.flatten_cons]
      have hpos : 1 ≤ l.length := List.length_pos.2 hnil
      rw [ih (l.drop m) (by simp only [List.length_drop]; omega)]
      exact List.take_append_drop m l

/-- Every chunk is nonempty and no longer than the minibatch size. -/
theorem chunksOf_sizes {α : Type} (m : ℕ) (hm : m ≠ 0) :
    ∀ (n : ℕ) (l : List α), l.length ≤ n →
    ∀ c ∈ chunksOf m l, c ≠ [] ∧ c.length ≤ m := by
  intro n
  induction n with
  | zero =>
    intro l hl c hc
    have hnil : l = [] := List.length_eq_zero.1 (Nat.le_zero.1 hl)
    subst hnil
    rw [chunksOf_nil] at hc
    simp at hc
  | succ k ih =>
    intro l hl c hc
    by_cases hnil : l = []
    · subst hnil; rw [chunksOf_nil] at hc; simp at hc
    · rw [chunksOf_eq m l hm hnil] at hc
      have hpos : 1 ≤ l.length := List.length_pos.2 hnil
      rcases List.mem_cons.1 hc with hc | hc
      · subst hc
        constructor
        · rw [Ne, List.take_eq_nil_iff]
          push_neg
          exact ⟨hm, hnil⟩
        · rw [List.length_take]
          omega
      · exact ih (l.drop m) (by simp only [List.length_drop]; omega) c hc

/-- Every chunk except possibly the last has exactly the minibatch size. -/
theorem chunksOf_dropLast {α : Type} (m : ℕ) (hm : m ≠ 0) :
    ∀ (n : ℕ) (l : List α), l.length ≤ n →
    ∀ c ∈ (chunksOf m l).dropLast, c.length = m := by
  intro n
  induction n with
  | zero =>
    intro l hl c hc
    have hnil : l = [] := List.length_eq_zero.1 (Nat.le_zero.1 hl)
    subst hnil
    rw [chunksOf_nil] at hc
    simp at hc
  | succ k ih =>
    intro l hl c hc
    by_cases hnil : l = []
    · subst hnil; rw [chunksOf_nil] at hc; simp at hc
    · rw [chunksOf_eq m l hm hnil] at hc
      have hpos : 1 ≤ l.length := List.length_pos.2 hnil
      by_cases hrest : l.drop m = []
      · rw [hrest, chunksOf_nil] at hc
        simp at hc
      · cases hrec : chunksOf m (l.drop m) with
        | nil => exact absurd hrec (chunksOf_ne_nil m hm (l.drop m) hrest)
        | cons c1 ct =>
          rw [hrec, List.dropLast_cons₂] at hc
          rcases List.mem_cons.1 hc with hc | hc
          · subst hc
            have hlong : m ≤ l.length := by
              by_contra hlt
              exact hrest (List.drop_eq_nil_of_le (by omega))
            rw [List.length_take]
            omega
          · have := ih (l.drop m) (by simp only [List.length_drop]; omega) c
            rw [hrec] at this
            exact this hc

/-- Peeling the first full batch off the indexed slice fold. -/
theorem foldl_slices_peel {σ : Type} (ops : NetOps σ) (m : ℕ) (x : List (List ℕ))
    (y : List ℕ) (s : σ) (k : ℕ) :
    (List.range (k + 1)).foldl
      (fun st i => ops.bt st (sliceL x (i * m) ((i + 1) * m))
        (sliceL y (i * m) ((i + 1) * m))) s
    = (List.range k).foldl
      (fun st i => ops.bt st (sliceL (x.drop m) (i * m) ((i + 1) * m))
        (sliceL (y.drop m) (i * m) ((i + 1) * m)))
      (ops.bt s (x.take m) (y.take m)) := by
  rw [List.range_succ_eq_map, List.foldl_cons, List.foldl_map]
  rw [sliceL_zero x m, sliceL_zero y m]
  congr 1
  funext st i
  have hsx : sliceL x (Nat.succ i * m) ((Nat.succ i + 1) * m)
      = sliceL (x.drop m) (i * m) ((i + 1) * m) := by
    rw [sliceL_batch, sliceL_batch, List.drop_drop]
    have : i * m + m = Nat.succ i * m := (Nat.succ_mul i m).symm
    rw [Nat.add_comm m (i * m), this]
  have hsy : sliceL y (Nat.succ i * m) ((Nat.succ i + 1) * m)
      = sliceL (y.drop m) (i * m) ((i + 1) * m) := by
    rw [sliceL_batch, sliceL_batch, List.drop_drop]
    have : i * m + m = Nat.succ i * m := (Nat.succ_mul i m).symm
    rw [Nat.add_comm m (i * m), this]
  rw [hsx, hsy]

/-- Peeling the first chunk off the reference epoch. -/
theorem epochStep_peel {σ : Type} (ops : NetOps σ) (m : ℕ) (hm : 1 ≤ m)
    (x : List (List ℕ)) (y : List ℕ) (s : σ) (hmy : m ≤ y.length)
    (hx : x.length = y.length) :
    epochStep ops m x y s =
      epochStep ops m (x.drop m) (y.drop m) (ops.bt s (x.take m) (y.take m)) := by
  unfold epochStep
  have hzlen : (x.zip y).length = y.length := by
    rw [List.length_zip, hx, Nat.min_self]
  have hz : x.zip y ≠ [] := by
    intro hcon
    rw [hcon] at hzlen
    simp at hzlen
    omega
  rw [chunksOf_eq m (x.zip y) (by omega) hz, List.foldl_cons, zip_drop_eq m x y]
  congr 1
  rw [zip_take_eq m x y]
  rw [List.map_fst_zip _ _ (by simp only [List.length_take]; omega)]
  rw [List.map_snd_zip _ _ (by simp only [List.length_take]; omega)]

/-- Peeling the first full batch off a code epoch when at least two full
batches of data are present. -/
theorem runEpoch_peel {σ : Type} (ops : NetOps σ) (m : ℕ) (hm : 1 ≤ m)
    (x : List (List ℕ)) (y : List ℕ) (s : σ) (h2 : 2 * m ≤ y.length)
    (hx : x.length = y.length) :
    runEpoch ops x y m s =
      runEpoch ops (x.drop m) (y.drop m) m (ops.bt s (x.take m) (y.take m)) := by
  have hm0 : m ≠ 0 := by omega
  have hmy : m ≤ y.length := by omega
  unfold runEpoch
  rw [if_neg hm0, if_neg hm0]
  dsimp only
  have hlen2 : (y.drop m).length = y.length - m := by simp
  have hdiv : y.length / m = (y.length - m) / m + 1 :=
    Nat.div_eq_sub_div (by omega) hmy
  have hdiv2 : (y.drop m).length / m = (y.length - m) / m := by rw [hlen2]
  have hq1 : 1 ≤ (y.length - m) / m := by
    rw [Nat.le_div_iff_mul_le (by omega)]
    omega
  rw [hdiv, hdiv2, foldl_slices_peel ops m x y s ((y.length - m) / m)]
  by_cases hrem : ((y.length - m) / m) * m = y.length - m
  · have hremL : ((y.length - m) / m + 1) * m = y.length := by
      rw [Nat.succ_mul]
      omega
    rw [if_neg (by omega : ¬(((y.length - m) / m + 1) * m ≠ y.length))]
    rw [if_neg (by rw [hlen2]; omega : ¬(((y.length - m) / m) * m ≠ (y.drop m).length))]
  · have hremL : ((y.length - m) / m + 1) * m ≠ y.length := by
      rw [Nat.succ_mul]
      omega
    rw [if_pos hremL]
    rw [if_pos (by rw [hlen2]; omega : ((y.length - m) / m) * m ≠ (y.drop m).length)]
    rw [if_neg (by omega : ¬((y.length - m) / m + 1 = 0))]
    rw [if_neg (by omega : ¬((y.length - m) / m = 0))]
    rw [List.drop_drop, List.drop_drop]
    have harith : m + (y.length - m) / m * m = ((y.length - m) / m + 1) * m := by
      rw [Nat.succ_mul]
      omega
    rw [harith]

/-- One code epoch over at least one full batch of data succeeds and
computes the reference epoch over the chunk partition. -/
theorem runEpoch_ok {σ : Type} (ops : NetOps σ) (m : ℕ) (hm : 1 ≤ m) :
    ∀ (n : ℕ) (x : List (List ℕ)) (y : List ℕ) (s : σ), y.length ≤ n →
    m ≤ y.length → x.length = y.length →
    runEpoch ops x y m s = Except.ok (epochStep ops m x y s) := by
  intro n
  induction n with
  | zero => intro x y s hn hmy _; omega
  | succ k ih =>
    intro x y s hn hmy hx
    by_cases h2 : 2 * m ≤ y.length
    · rw [runEpoch_peel ops m hm x y s h2 hx]
      rw [ih (x.drop m) (y.drop m) (ops.bt s (x.take m) (y.take m))
        (by simp only [List.length_drop]; omega)
        (by simp only [List.length_drop]; omega)
        (by simp only [List.length_drop]; omega)]
      rw [epochStep_peel ops m hm x y s hmy hx]
    · -- exactly one full batch: m ≤ N < 2m
      have hm0 : m ≠ 0 := by omega
      have hdiv : y.length / m = 1 :=
        Nat.div_eq_of_lt_le (by omega) (by omega)
      unfold runEpoch
      rw [if_neg hm0]
      dsimp only
      rw [hdiv]
      have hfold : (List.range 1).foldl
          (fun st i => ops.bt st (sliceL x (i * m) ((i + 1) * m))
            (sliceL y (i * m) ((i + 1) * m))) s
          = ops.bt s (x.take m) (y.take m) := by
        rw [show List.range 1 = [0] from rfl]
        rw [List.foldl_cons, List.foldl_nil, sliceL_zero, sliceL_zero]
      rw [hfold]
      have hzlen : (x.zip y).length = y.length := by
        rw [List.length_zip, hx, Nat.min_self]
      have hz : x.zip y ≠ [] := by
        intro hcon
        rw [hcon] at hzlen
        simp at hzlen
        omega
      by_cases hNm : m = y.length
      · rw [if_neg (by omega : ¬(1 * m ≠ y.length))]
        unfold epochStep
        rw [chunksOf_eq m (x.zip y) hm0 hz]
        have hdropz : (x.zip y).drop m = [] :=
          List.drop_eq_nil_of_le (by omega)
        rw [hdropz, chunksOf_nil, List.foldl_cons, List.foldl_nil]
        rw [List.take_of_length_le (show (x.zip y).length ≤ m by omega)]
        rw [List.map_fst_zip x y (by omega), List.map_snd_zip x y (by omega)]
        rw [List.take_of_length_le (show x.length ≤ m by omega)]
        rw [List.take_of_length_le (show y.length ≤ m by omega)]
      · rw [if_pos (by omega : 1 * m ≠ y.length)]
        rw [if_neg (by omega : ¬(1 = 0))]
        unfold epochStep
        rw [chunksOf_eq m (x.zip y) hm0 hz]
        have hdz : (x.zip y).drop m ≠ [] := by
          rw [Ne, List.drop_eq_nil_iff]
          omega
        rw [chunksOf_eq m ((x.zip y).drop m) hm0 hdz]
        have hdz2 : ((x.zip y).drop m).drop m = [] := by
          rw [List.drop_eq_nil_iff]
          simp only [List.length_drop]
          omega
        rw [hdz2, chunksOf_nil]
        rw [List.foldl_cons, List.foldl_cons, List.foldl_nil]
        rw [List.take_of_length_le
          (show ((x.zip y).drop m).length ≤ m by simp only [List.length_drop]; omega)]
        rw [zip_take_eq m x y, zip_drop_eq m x y]
        rw [List.map_fst_zip (x.take m) (y.take m) (by simp only [List.length_take]; omega)]
        rw [List.map_snd_zip (x.take m) (y.take m) (by simp only [List.length_take]; omega)]
        rw [List.map_fst_zip (x.drop m) (y.drop m) (by simp only [List.length_drop]; omega)]
        rw [List.map_snd_zip (x.drop m) (y.drop m) (by simp only [List.length_drop]; omega)]
        rw [Nat.one_mul]

/-- With a nonempty training set and an oversized minibatch, the epoch
body fails: zero full batches exist and the remainder branch reads the
unbound loop variable. -/
theorem runEpoch_oversized {σ : Type} (ops : NetOps σ) (x : List (List ℕ))
    (y : List ℕ) (m : ℕ) (s : σ) (h1 : 1 ≤ y.length) (h2 : y.length < m) :
    runEpoch ops x y m s = Except.error () := by
  have hm0 : m ≠ 0 := by omega
  unfold runEpoch
  rw [if_neg hm0]
  dsimp only
  rw [Nat.div_eq_of_lt h2]
  have hne : 0 * m ≠ y.length := by
    rw [Nat.zero_mul]
    omega
  rw [if_pos hne, if_pos rfl]

/-- Characterization of the epoch loop: it returns the first epoch whose
recomputed error is within the threshold, or the last epoch when none is,
together with the state of that epoch. -/
theorem mtGo_spec {σ : Type} (ops : NetOps σ) (x : List (List ℕ)) (y : List ℕ)
    (m : ℕ)
    (hrun : ∀ s, runEpoch ops x y m s = Except.ok (epochStep ops m x y s)) :
    ∀ (f e : ℕ) (s : σ), 1 ≤ f →
    ∃ j, mtGo ops x y m e f s = Except.ok (e + j, epochIter ops m x y (j + 1) s) ∧
      j + 1 ≤ f ∧
      (|ops.err (epochIter ops m x y (j + 1) s) - 0| ≤ 1 / 100000 ∨ j + 1 = f) ∧
      (∀ i, 1 ≤ i → i < j + 1 →
        ¬(|ops.err (epochIter ops m x y i s) - 0| ≤ 1 / 100000)) := by
  intro f
  induction f with
  | zero => intro e s h; omega
  | succ k ih =>
    intro e s _
    by_cases hc : |ops.err (epochStep ops m x y s) - 0| ≤ 1 / 100000
    · refine ⟨0, ?_, by omega, Or.inl hc, ?_⟩
      · simp only [mtGo]
        rw [hrun s]
        dsimp only
        rw [if_pos hc]
        rfl
      · intro i h1 h2
        omega
    · by_cases hk : k = 0
      · subst hk
        refine ⟨0, ?_, by omega, Or.inr rfl, ?_⟩
        · simp only [mtGo]
          rw [hrun s]
          dsimp only
          rw [if_neg hc]
          rw [if_pos trivial]
          rfl
        · intro i h1 h2
          omega
      · obtain ⟨j2, hok, hle, hstop, hmin⟩ := ih (e + 1) (epochStep ops m x y s) (by omega)
        refine ⟨j2 + 1, ?_, by omega, ?_, ?_⟩
        · simp only [mtGo]
          rw [hrun s]
          dsimp only
          rw [if_neg hc, if_neg hk, hok]
          have he : e + 1 + j2 = e + (j2 + 1) := by omega
          rw [he]
          rfl
        · rcases hstop with hs | hs
          · exact Or.inl hs
          · exact Or.inr (by omega)
        · intro i h1 h2
          cases i with
          | zero => omega
          | succ i2 =>
            by_cases hi2 : i2 = 0
            · subst hi2
              exact fun hcon => hc hcon
            · exact fun hcon => hmin i2 (by omega) (by omega) hcon

/-- C10: with a nonempty training set, `minibatch_train` called with a
minibatch size strictly greater than the sample count fails (the
remainder branch reads the never-bound batch loop variable) instead of
training the whole set as one smaller batch, while for any minibatch size
between one and the sample count the epoch loop runs without this error. -/
theorem minibatch_oversized_fails {σ : Type} (ops : NetOps σ) (x : List (List ℕ))
    (y : List ℕ) (m maxE : ℕ) (s : σ) (hE : 1 ≤ maxE) :
    (1 ≤ y.length → y.length < m →
      minibatchTrain ops x y m maxE s = Except.error ()) ∧
    (1 ≤ m → m ≤ y.length → x.length = y.length →
      ∃ r, minibatchTrain ops x y m maxE s = Except.ok r) := by
  constructor
  · intro h1 h2
    unfold minibatchTrain
    obtain ⟨f, rfl⟩ : ∃ f, maxE = f + 1 := ⟨maxE - 1, by omega⟩
    simp only [mtGo]
    rw [runEpoch_oversized ops x y m s h1 h2]
  · intro hm hle hx
    have hrun : ∀ s2, runEpoch ops x y m s2 = Except.ok (epochStep ops m x y s2) :=
      fun s2 => runEpoch_ok ops m hm y.length x y s2 le_rfl hle hx
    obtain ⟨j, hok, _, _, _⟩ := mtGo_spec ops x y m hrun maxE 1 s hE
    exact ⟨_, hok⟩

/-- Witness for C10: two samples cannot be trained with minibatch size
three - the concrete call fails. -/
theorem minibatch_oversized_fails_witness :
    minibatchTrain exOps [[0]] [0] 2 1 0 = Except.error () :=
  (minibatch_oversized_fails exOps [[0]] [0] 2 1 0 (by omega)).1 (by decide) (by decide)

/-- C2 counterexample: as universally stated over every minibatch size,
the claim fails - with one training sample and minibatch size two the
concrete call raises an error rather than partitioning, training and
returning an epoch count. -/
theorem minibatch_partition_counterexample :
    minibatchTrain exOps [[0]] [0] 2 3 0 = Except.error () := rfl

/-- C2 as amended (minibatch size between one and the sample count, at
least one epoch): each epoch folds `batch_train` over the contiguous
chunk partition of the training set - chunks of size m, in order, joined
back to the whole set, with only the last chunk possibly smaller - the
loop stops at the first epoch whose recomputed zero-one rate is within
1e-5 of zero (or at max_epochs), and that epoch count and state are
returned. -/
theorem minibatch_train_partitions {σ : Type} (ops : NetOps σ) (x : List (List ℕ))
    (y : List ℕ) (m maxE : ℕ) (s : σ)
    (hm : 1 ≤ m) (hle : m ≤ y.length) (hx : x.length = y.length) (hE : 1 ≤ maxE) :
    (chunksOf m (x.zip y)).flatten = x.zip y ∧
    (∀ c ∈ chunksOf m (x.zip y), c ≠ [] ∧ c.length ≤ m) ∧
    (∀ c ∈ (chunksOf m (x.zip y)).dropLast, c.length = m) ∧
    ∃ e sF, minibatchTrain ops x y m maxE s = Except.ok (e, sF) ∧
      1 ≤ e ∧ e ≤ maxE ∧ sF = epochIter ops m x y e s ∧
      (|ops.err sF - 0| ≤ 1 / 100000 ∨ e = maxE) ∧
      (∀ k, 1 ≤ k → k < e →
        ¬(|ops.err (epochIter ops m x y k s) - 0| ≤ 1 / 100000)) := by
  have hm0 : m ≠ 0 := by omega
  refine ⟨chunksOf_flatten m hm0 (x.zip y).length _ le_rfl,
          fun c hc => chunksOf_sizes m hm0 (x.zip y).length _ le_rfl c hc,
          fun c hc => chunksOf_dropLast m hm0 (x.zip y).length _ le_rfl c hc, ?_⟩
  have hrun : ∀ s2, runEpoch ops x y m s2 = Except.ok (epochStep ops m x y s2) :=
    fun s2 => runEpoch_ok ops m hm y.length x y s2 le_rfl hle hx
  obtain ⟨j, hok, hle2, hstop, hmin⟩ := mtGo_spec ops x y m hrun maxE 1 s hE
  refine ⟨j + 1, epochIter ops m x y (j + 1) s, ?_, by omega, by omega, rfl, ?_, ?_⟩
  · unfold minibatchTrain
    rw [hok]
    have he : 1 + j = j + 1 := by omega
    rw [he]
  · rcases hstop with hs | hs
    · exact Or.inl hs
    · exact Or.inr (by omega)
  · intro k h1 h2
    exact hmin k h1 (by omega)

/-- Witness for the amended C2: a one-sample training set with minibatch
size one and an error rate already at zero stops after epoch one. -/
theorem minibatch_train_partitions_witness :
    (chunksOf 1 (([[0]] : List (List ℕ)).zip ([0] : List ℕ))).flatten
        = ([[0]] : List (List ℕ)).zip ([0] : List ℕ) ∧
    minibatchTrain exOps2 [[0]] [0] 1 2 0 = Except.ok (1, 1) := by
  have H := minibatch_train_partitions exOps2 [[0]] [0] 1 2 0
    (by omega) (by decide) (by decide) (by omega)
  refine ⟨H.1, ?_⟩
  obtain ⟨e, sF, hok, he1, heM, hiter, hstop, hmin⟩ := H.2.2.2
  have hch : chunksOf 1 (([[0]] : List (List ℕ)).zip ([0] : List ℕ)) = [[([0], 0)]] := by
    rw [chunksOf_eq 1 _ (by omega) (by decide)]
    rw [show ((([[0]] : List (List ℕ)).zip ([0] : List ℕ)).drop 1) = [] from rfl]
    rw [chunksOf_nil]
    rfl
  have hiter1 : epochIter exOps2 1 [[0]] [0] 1 0 = 1 := by
    show epochStep exOps2 1 [[0]] [0] 0 = 1
    unfold epochStep
    rw [hch]
    rfl
  have he : e = 1 := by
    by_contra hne
    have hlt : 1 < e := by omega
    apply hmin 1 le_rfl hlt
    show |exOps2.err (epochIter exOps2 1 [[0]] [0] 1 0) - 0| ≤ 1 / 100000
    norm_num [exOps2]
  subst he
  rw [hiter1] at hiter
  subst hiter
  exact hok

end NNFL
